import Mathlib

/-!
Shallow embedding of the Markov sentence generator in `backend/markov.py`
(class `ShakespeareMarkov`): the per-word cleanup and vocabulary build of
`load_and_process`, the sliding-window `build_matrix`, the back-off
predictor `next_word`, and `generate_sentence`.

Token ids are `Int` with `-1` as the out-of-vocabulary sentinel, matching
the Python code.  Randomness is made explicit: the weighted draw of
`np.random.choice(candidates, p=probs)` takes a rational `u` in `[0,1)`
and walks the cumulative distribution, and the uniform fallback draw
takes a natural number index reduced modulo the list length.  Fallible
operations (numpy errors, dict lookups) return `Option`/`Except`.
-/

namespace Markov

/-! ### Tokenizer: the per-word cleanup loop of `load_and_process` -/

/-- `re.sub(r'[_-]', '', w)`: delete every literal underscore and hyphen. -/
def stripChars (w : String) : String :=
  ⟨w.data.filter (fun c => !(c == '_' || c == '-'))⟩

/-- Python `str.isupper` restricted to ASCII: at least one cased (alphabetic)
character, and every cased character is upper-case. -/
def pyIsUpper (w : String) : Bool :=
  w.data.any (fun c => c.isAlpha) && w.data.all (fun c => !c.isAlpha || c.isUpper)

/-- Python `str.isdigit` restricted to ASCII: non-empty and all digits. -/
def pyIsDigit (w : String) : Bool :=
  !w.data.isEmpty && w.data.all (fun c => c.isDigit)

/-- Python `str.lower` restricted to ASCII. -/
def pyLower (w : String) : String :=
  ⟨w.data.map Char.toLower⟩

/-- One iteration of the cleanup loop in `load_and_process`:
strip `_`/`-`, drop empty results, drop all-upper words other than
`"I"`/`"A"`, drop all-digit words, otherwise keep the lower-cased word. -/
def cleanWord (w : String) : Option String :=
  if (stripChars w).data.isEmpty then none
  else if pyIsUpper (stripChars w) &&
      !(stripChars w == "I" || stripChars w == "A") then none
  else if pyIsDigit (stripChars w) then none
  else some (pyLower (stripChars w))

/-- The whole cleanup loop: `cleaned_words`. -/
def cleanWords (ws : List String) : List String :=
  ws.filterMap cleanWord

/-! ### Vocabulary: `Counter(...).most_common(top_k)` and the id maps -/

/-- The distinct tokens of `ws` in order of first appearance
(the insertion order of `collections.Counter`). -/
def firstSeen (ws : List String) : List String :=
  ws.foldl (fun acc w => if w ∈ acc then acc else acc ++ [w]) []

/-- Comparator of `Counter.most_common`: descending frequency.  The sort
being stable, ties keep first-appearance order. -/
def freqLE (ws : List String) (a b : String) : Bool :=
  decide (ws.count b ≤ ws.count a)

/-- `self.vocab`: the `top_k` most frequent distinct tokens, by descending
frequency, ties broken by first appearance (`most_common` is a stable
descending sort).  A non-positive `k` yields the empty list, as
`most_common` does. -/
def vocabOf (ws : List String) (k : Int) : List String :=
  ((firstSeen ws).mergeSort (freqLE ws)).take k.toNat

/-- `self.word_to_id.get(w)`: the dense id of a vocabulary word. -/
def wordToId (vocab : List String) (w : String) : Option Int :=
  if w ∈ vocab then some (vocab.indexOf w : Nat) else none

/-- `self.id_to_word[i]`: dict lookup, `none` models a `KeyError`. -/
def idToWord (vocab : List String) (i : Int) : Option String :=
  if h : 0 ≤ i ∧ i.toNat < vocab.length then some (vocab.get ⟨i.toNat, h.2⟩)
  else none

/-- `self.tokens`: every corpus position mapped to its id, or `-1`. -/
def tokensOf (ws vocab : List String) : List Int :=
  ws.map (fun w => (wordToId vocab w).getD (-1))

/-- The vocabulary stage of `load_and_process` as a whole.  The Python code
computes unconditionally and has no failure path, so the `Except` is
always `ok`; the wrapper records that no exception is raised. -/
def load_vocabE (ws : List String) (k : Int) :
    Except String (List String × List Int) :=
  Except.ok (vocabOf ws k, tokensOf ws (vocabOf ws k))

/-! ### TransitionTable: `build_matrix` -/

/-- `sliding_window_view(tokens, w)`: all width-`w` windows. -/
def windows (ts : List Int) (w : Nat) : List (List Int) :=
  (List.range (ts.length + 1 - w)).map (fun i => (ts.drop i).take w)

/-- The row filter `M_view[:, -1] != -1 & M_view[:, -2] != -1`, written with
the negative indices of the source. -/
def keepRow (r : List Int) : Bool :=
  !(r.getD (r.length - 1) 0 == -1) && !(r.getD (r.length - 2) 0 == -1)

/-- `build_matrix`: `none` models the two numpy errors — the
`sliding_window_view` failure when the stream is shorter than the window,
and the column `-2` lookup failure when the window has fewer than two
columns. -/
def build_matrix (mlag : Nat) (tokens : List Int) : Option (List (List Int)) :=
  if tokens.length < mlag + 1 then none
  else if mlag + 1 < 2 then none
  else some ((windows tokens (mlag + 1)).filter keepRow)

/-! ### BackoffPredictor: `next_word` -/

/-- `M[:, mlag-i : mlag]`: the `i` context columns compared at level `i`. -/
def rowCtx (mlag i : Nat) (r : List Int) : List Int :=
  (r.drop (mlag - i)).take i

/-- `key_ids[-i:]`: the trailing `i` ids of the key. -/
def subKeyOf (key : List Int) (i : Nat) : List Int :=
  key.drop (key.length - i)

/-- The target-column values of the rows matched at back-off level `i`. -/
def levelTargets (M : List (List Int)) (mlag : Nat) (key : List Int)
    (i : Nat) : List Int :=
  (M.filter (fun r => rowCtx mlag i r == subKeyOf key i)).map
    (fun r => r.getD mlag 0)

/-- The back-off loop `for i in range(len(key_ids), 0, -1)`: candidates and
per-candidate weights `1 / len(matched_targets)`, accumulated from the
longest level down to level 1. -/
def poolAux (M : List (List Int)) (mlag : Nat) (key : List Int) :
    Nat → List Int × List ℚ
  | 0 => ([], [])
  | i + 1 =>
    let ts := levelTargets M mlag key (i + 1)
    let rest := poolAux M mlag key i
    if ts.isEmpty then rest
    else (ts ++ rest.1,
      List.replicate ts.length ((1 : ℚ) / (ts.length : ℚ)) ++ rest.2)

/-- `next_word_candidates` and `weights` after the whole loop. -/
def next_word_pool (M : List (List Int)) (mlag : Nat) (key : List Int) :
    List Int × List ℚ :=
  poolAux M mlag key key.length

/-- `np.random.choice(cands, p=probs)` with the random draw `u` explicit:
walk the probability list and pick the candidate whose cumulative
probability interval contains `u`. -/
def pickWeighted : List Int → List ℚ → ℚ → Option Int
  | [], _, _ => none
  | c :: _, [], _ => some c
  | c :: cs, p :: ps, u => if u < p then some c else pickWeighted cs ps (u - p)

/-- The corpus-frequency fallback
`np.random.choice([t for t in self.tokens if t != -1])`, with the uniform
draw given as an index `r`; `none` models the numpy error on an empty
list. -/
def bigFallback (tokens : List Int) (r : Nat) : Option Int :=
  let valid := tokens.filter (fun t => !(t == -1))
  if h : valid.length = 0 then none
  else some (valid.get ⟨r % valid.length, Nat.mod_lt r (Nat.pos_of_ne_zero h)⟩)

/-- The key preparation of `next_word`: map the recent words to ids
dropping unknown words, keep the trailing `mlag` ids. -/
def keyIdsOf (vocab : List String) (mlag : Nat) (key_words : List String) :
    List Int :=
  let keyIds0 := key_words.filterMap (fun k => wordToId vocab k)
  if mlag < keyIds0.length then keyIds0.drop (keyIds0.length - mlag)
  else keyIds0

/-- `self.id_to_word[...]` applied to an optional sampled id: a sampling
failure propagates, a sampled id is looked up in the vocabulary. -/
def lookupOpt (vocab : List String) : Option Int → Option String
  | none => none
  | some t => idToWord vocab t

/-- `next_word`: map the recent words to ids dropping unknown words, keep
the trailing `mlag` ids, accumulate the back-off pool, then either fall
back to corpus sampling or draw from the normalized pooled weights. -/
def next_word (vocab : List String) (M : List (List Int)) (mlag : Nat)
    (tokens : List Int) (key_words : List String) (u : ℚ) (r : Nat) :
    Option String :=
  if (next_word_pool M mlag (keyIdsOf vocab mlag key_words)).1.isEmpty then
    lookupOpt vocab (bigFallback tokens r)
  else
    lookupOpt vocab
      (pickWeighted (next_word_pool M mlag (keyIdsOf vocab mlag key_words)).1
        ((next_word_pool M mlag (keyIdsOf vocab mlag key_words)).2.map
          (fun w => w /
            (next_word_pool M mlag (keyIdsOf vocab mlag key_words)).2.sum)) u)

/-! ### SentenceGenerator: `generate_sentence` -/

/-- The generation loop `while current_token != "." and count < 50`.
`predict` receives the loop counter so each call may use fresh
randomness; `none` propagates a predictor failure. -/
def genLoop (predict : Nat → List String → Option String)
    (gen : List String) (cur : String) (count : Nat) :
    Option (List String) :=
  if h : cur ≠ "." ∧ count < 50 then
    match predict count gen with
    | none => none
    | some w => genLoop predict (gen ++ [w]) w (count + 1)
  else some gen
termination_by 50 - count
decreasing_by exact Nat.sub_succ_lt_self 50 count h.2

/-- `" ".join(generated)` at the character level. -/
def joinChars : List String → List Char
  | [] => []
  | [w] => w.data
  | w :: ws => w.data ++ ' ' :: joinChars ws

/-- One pass of `text.replace(" " + p, p)`: delete each space directly
followed by `p`, scanning left to right without revisiting the
replacement. -/
def removeSpaceBeforeChar (p : Char) : List Char → List Char
  | c :: q :: rest =>
    if c == ' ' && q == p then q :: removeSpaceBeforeChar p rest
    else c :: removeSpaceBeforeChar p (q :: rest)
  | l => l

/-- The punctuation list `puncs` of the source. -/
def puncs : List Char := [',', '.', ';', '!', ':', '?']

/-- The detokenization loop `for p in puncs: text = text.replace(...)`. -/
def detokChars (l : List Char) : List Char :=
  puncs.foldl (fun acc p => removeSpaceBeforeChar p acc) l

/-- The literal error string returned for an unknown start word. -/
def errString : String := "Error: Start word not in vocabulary."

/-- `generate_sentence`: unknown start words return the error string as a
normal value; otherwise run the loop from the start word and detokenize. -/
def generate_sentence (predict : Nat → List String → Option String)
    (vocab : List String) (start_word : String) : Option String :=
  if start_word ∈ vocab then
    match genLoop predict [start_word] start_word 0 with
    | none => none
    | some gen => some ⟨detokChars (joinChars gen)⟩
  else some errString

/-- The predictor of the loaded model, with explicit per-call randomness
streams `u` and `r`. -/
def modelPredict (vocab : List String) (M : List (List Int)) (mlag : Nat)
    (tokens : List Int) (u : Nat → ℚ) (r : Nat → Nat) :
    Nat → List String → Option String :=
  fun n gen => next_word vocab M mlag tokens gen (u n) (r n)

/-- The full serving path: `generate_sentence` driven by `next_word` on the
loaded model state. -/
def generate (vocab : List String) (M : List (List Int)) (mlag : Nat)
    (tokens : List Int) (u : Nat → ℚ) (r : Nat → Nat)
    (start_word : String) : Option String :=
  generate_sentence (modelPredict vocab M mlag tokens u r) vocab start_word

/-! ### Spec-side definitions, written from the specification's wording,
to be compared with the source-derived definitions above. -/

/-- Spec wording for the row filter: the last column (the prediction
target) and the second-to-last column (columns `mlag` and `mlag - 1` of a
width-`mlag+1` row) are both non-sentinel. -/
def specKeep (mlag : Nat) (r : List Int) : Prop :=
  r.getD mlag 0 ≠ -1 ∧ r.getD (mlag - 1) 0 ≠ -1

instance (mlag : Nat) (r : List Int) : Decidable (specKeep mlag r) :=
  inferInstanceAs (Decidable (_ ∧ _))

/-- Spec wording for a level-`i` match: the trailing `i` suffix of the key
agrees position by position with the context columns `[mlag-i, mlag)` of
the row. -/
def specRowMatch (mlag i : Nat) (key : List Int) (r : List Int) : Prop :=
  ∀ j < i, r.getD (mlag - i + j) 0 = key.getD (key.length - i + j) 0

instance (mlag i : Nat) (key r : List Int) :
    Decidable (specRowMatch mlag i key r) :=
  inferInstanceAs (Decidable (∀ j < i, _))

/-- Spec wording: the target-column values of all rows matched at level
`i`. -/
def specLevelTargets (M : List (List Int)) (mlag : Nat) (key : List Int)
    (i : Nat) : List Int :=
  (M.filter (fun r => decide (specRowMatch mlag i key r))).map
    (fun r => r.getD mlag 0)

/-- Spec wording: the candidate pool is the concatenation of the matched
targets of every level, from `len(key)` down to `1`. -/
def specPool (M : List (List Int)) (mlag : Nat) (key : List Int) :
    List Int :=
  ((List.range key.length).reverse).flatMap
    (fun j => specLevelTargets M mlag key (j + 1))

/-- Spec wording: each candidate of a level carries weight `1 / (number of
rows matched at that level)`. -/
def specWeights (M : List (List Int)) (mlag : Nat) (key : List Int) :
    List ℚ :=
  ((List.range key.length).reverse).flatMap (fun j =>
    List.replicate (specLevelTargets M mlag key (j + 1)).length
      ((1 : ℚ) / ((specLevelTargets M mlag key (j + 1)).length : ℚ)))

/-- Spec wording: the word is entirely upper-case — it has a cased
character and every cased character is upper-case. -/
def specAllUpper (s : String) : Prop :=
  (∃ c ∈ s.data, c.isAlpha) ∧ ∀ c ∈ s.data, c.isAlpha → c.isUpper

/-- Spec wording: the word is entirely numeric. -/
def specAllNumeric (s : String) : Prop :=
  s.data ≠ [] ∧ ∀ c ∈ s.data, c.isDigit

/-- Spec wording for the tokenizer drop conditions, applied to the word
with `_` and `-` already deleted: empty, or entirely upper-case and not
exactly `"I"`/`"A"`, or entirely numeric. -/
def specDrop (w : String) : Prop :=
  (stripChars w).data = [] ∨
  (specAllUpper (stripChars w) ∧ stripChars w ≠ "I" ∧ stripChars w ≠ "A") ∨
  specAllNumeric (stripChars w)

/-- Spec wording for detokenization: a single pass that deletes every
space immediately preceding an occurrence of one of the marks in `S`, and
deletes nothing else. -/
def specRemoveSet (S : List Char) : List Char → List Char
  | c :: q :: rest =>
    if c = ' ' ∧ q ∈ S then specRemoveSet S (q :: rest)
    else c :: specRemoveSet S (q :: rest)
  | l => l

/-- No two consecutive spaces: the shape of a text joined from non-empty
space-free tokens with single spaces. -/
def isolatedSpaces (l : List Char) : Prop :=
  l.Chain' (fun a b => ¬(a = ' ' ∧ b = ' '))

/-! ## Theorems -/

lemma length_windows (ts : List Int) (w : Nat) :
    (windows ts w).length = ts.length + 1 - w := by
  simp [windows]

lemma getElem_windows (ts : List Int) (w i : Nat)
    (h : i < (windows ts w).length) :
    (windows ts w)[i] = (ts.drop i).take w := by
  simp [windows]

lemma mem_windows_length {ts : List Int} {w : Nat} (hw : w ≤ ts.length)
    {r : List Int} (hr : r ∈ windows ts w) : r.length = w := by
  simp only [windows, List.mem_map, List.mem_range] at hr
  obtain ⟨i, hi, rfl⟩ := hr
  simp only [List.length_take, List.length_drop]
  omega

lemma mem_windows_subset {ts : List Int} {w : Nat} {r : List Int}
    (hr : r ∈ windows ts w) : ∀ x ∈ r, x ∈ ts := by
  simp only [windows, List.mem_map, List.mem_range] at hr
  obtain ⟨i, _, rfl⟩ := hr
  intro x hx
  exact List.mem_of_mem_drop (List.mem_of_mem_take hx)

lemma keepRow_eq_specKeep {mlag : Nat} {r : List Int}
    (h : r.length = mlag + 1) :
    keepRow r = decide (specKeep mlag r) := by
  have h1 : r.length - 1 = mlag := by omega
  have h2 : r.length - 2 = mlag - 1 := by omega
  have e : ∀ x : Int, (x == -1) = decide (x = -1) := by
    intro x; by_cases hx : x = -1 <;> simp [hx]
  unfold keepRow specKeep
  rw [h1, h2, e, e]
  by_cases hx : r.getD mlag 0 = -1 <;>
    by_cases hy : r.getD (mlag - 1) 0 = -1 <;> simp [hx, hy]

/-- **C2**: for a token stream of length `n ≥ mlag+1` (and `mlag ≥ 1`, the
shape in which the code is runnable at all, since it reads column `-2`),
`build_matrix` succeeds and returns exactly the `n - mlag` sliding windows
of width `mlag+1`, filtered to the rows whose last and second-to-last
columns are non-sentinel — earlier columns are retained as they are; and
the build fails exactly when the stream is shorter than `mlag+1`. -/
theorem c2 (mlag : Nat) (tokens : List Int) (hm : 1 ≤ mlag) :
    (mlag + 1 ≤ tokens.length →
      build_matrix mlag tokens =
        some ((windows tokens (mlag + 1)).filter
          (fun r => decide (specKeep mlag r))) ∧
      (windows tokens (mlag + 1)).length = tokens.length - mlag ∧
      ∀ i (h : i < (windows tokens (mlag + 1)).length),
        (windows tokens (mlag + 1))[i] = (tokens.drop i).take (mlag + 1)) ∧
    (build_matrix mlag tokens = none ↔ tokens.length < mlag + 1) := by
  constructor
  · intro hlen
    refine ⟨?_, ?_, ?_⟩
    · unfold build_matrix
      rw [if_neg (by omega), if_neg (by omega)]
      congr 1
      refine List.filter_congr ?_
      intro r hr
      exact keepRow_eq_specKeep (mem_windows_length (by omega) hr)
    · rw [length_windows]; omega
    · intro i h; exact getElem_windows _ _ _ h
  · unfold build_matrix
    constructor
    · intro h
      by_contra hc
      rw [if_neg (by omega), if_neg (by omega)] at h
      exact Option.some_ne_none _ h
    · intro h
      rw [if_pos h]

/-- Witness for `c2` at `mlag = 1`, stream `[0, -1, 3]`. -/
theorem c2_witness :
    1 ≤ 1 ∧ 1 + 1 ≤ ([0, -1, 3] : List Int).length ∧
    (build_matrix 1 [0, -1, 3] =
      some ((windows [0, -1, 3] 2).filter
        (fun r => decide (specKeep 1 r))) ∧
     (windows ([0, -1, 3] : List Int) 2).length =
       ([0, -1, 3] : List Int).length - 1 ∧
     ∀ i (h : i < (windows ([0, -1, 3] : List Int) 2).length),
       (windows ([0, -1, 3] : List Int) 2)[i] =
         (([0, -1, 3] : List Int).drop i).take 2) ∧
    (build_matrix 1 [0, -1, 3] = none ↔
      ([0, -1, 3] : List Int).length < 2) :=
  ⟨by decide, by decide, (c2 1 [0, -1, 3] (by decide)).1 (by decide),
    (c2 1 [0, -1, 3] (by decide)).2⟩

/-- **C10**: when the start word is the terminator `"."` itself and is in
the vocabulary, `generate_sentence` returns `"."` with zero generated
tokens — the loop guard is tested before the first iteration, so this
holds for an arbitrary predictor, including one that always fails: the
predictor is never invoked. -/
theorem c10 (predict : Nat → List String → Option String)
    (vocab : List String) (h : "." ∈ vocab) :
    generate_sentence predict vocab "." = some "." := by
  unfold generate_sentence
  rw [if_pos h, genLoop]
  rw [dif_neg (by simp)]
  rfl

/-- Witness for `c10`: vocabulary `["."]` and the always-failing
predictor. -/
theorem c10_witness :
    "." ∈ ["."] ∧
    generate_sentence (fun _ _ => none) ["."] "." = some "." :=
  ⟨by decide, c10 (fun _ _ => none) ["."] (by decide)⟩

lemma pyIsUpper_iff (s : String) : pyIsUpper s = true ↔ specAllUpper s := by
  unfold pyIsUpper specAllUpper
  rw [Bool.and_eq_true, List.any_eq_true, List.all_eq_true]
  apply and_congr
  · simp
  · constructor
    · intro h c hc hca
      have h2 := h c hc
      simpa [hca] using h2
    · intro h c hc
      by_cases hca : c.isAlpha
      · simp [h c hc hca]
      · simp [hca]

lemma pyIsDigit_iff (s : String) : pyIsDigit s = true ↔ specAllNumeric s := by
  simp [pyIsDigit, specAllNumeric, List.all_eq_true, List.isEmpty_iff]

lemma cleanWord_none_iff (w : String) : cleanWord w = none ↔ specDrop w := by
  have hu := pyIsUpper_iff (stripChars w)
  have hd := pyIsDigit_iff (stripChars w)
  unfold cleanWord specDrop
  split_ifs with h1 h2 h3
  · simp only [List.isEmpty_iff] at h1
    simp [h1]
  · rw [Bool.and_eq_true] at h2
    have h2a := hu.mp h2.1
    have h2b : stripChars w ≠ "I" ∧ stripChars w ≠ "A" := by
      have := h2.2
      simp only [Bool.not_eq_eq_eq_not, Bool.not_true, Bool.or_eq_false_iff,
        beq_eq_false_iff_ne] at this
      exact this
    simp [h2a, h2b.1, h2b.2]
  · have h3a := hd.mp h3
    simp [h3a]
  · simp only [List.isEmpty_iff] at h1
    constructor
    · intro h; exact absurd h (by simp)
    · intro h
      rcases h with h | h | h
      · exact absurd h h1
      · exfalso
        apply h2
        rw [Bool.and_eq_true]
        refine ⟨hu.mpr h.1, ?_⟩
        simp [h.2.1, h.2.2]
      · exact absurd (hd.mpr h) h3

lemma cleanWord_some_of_not_drop {w : String} (h : ¬ specDrop w) :
    cleanWord w = some (pyLower (stripChars w)) := by
  rcases hn : cleanWord w with _ | v
  · exact absurd ((cleanWord_none_iff w).mp hn) h
  · unfold cleanWord at hn
    split_ifs at hn
    exact hn.symm

/-- **C8**: the per-word tokenizer pipeline.  A word is dropped exactly
when, after deleting `_` and `-`, it is empty, or entirely upper-case and
not exactly `"I"`/`"A"`, or entirely numeric; a kept word maps exactly to
the lower-casing of the stripped word; and the cleanup processes words
independently in order (it distributes over append, so the output
preserves input order of kept words). -/
theorem c8 :
    (∀ w, cleanWord w = none ↔ specDrop w) ∧
    (∀ w v, cleanWord w = some v ↔
      ¬ specDrop w ∧ v = pyLower (stripChars w)) ∧
    ∀ xs ys, cleanWords (xs ++ ys) = cleanWords xs ++ cleanWords ys := by
  refine ⟨cleanWord_none_iff, ?_, ?_⟩
  · intro w v
    constructor
    · intro h
      have hnd : ¬ specDrop w := by
        intro hd
        rw [← cleanWord_none_iff] at hd
        rw [h] at hd
        cases hd
      have h2 := cleanWord_some_of_not_drop hnd
      rw [h] at h2
      exact ⟨hnd, Option.some_inj.mp h2⟩
    · rintro ⟨hnd, rfl⟩
      exact cleanWord_some_of_not_drop hnd
  · intro xs ys
    exact List.filterMap_append xs ys cleanWord

/-- **C7, counterexample to the claim as stated**: at `topK = -1 ≤ 0` the
vocabulary build does not fail — the source computes unconditionally
(`most_common` of a non-positive count returns the empty list), so the
build succeeds with an empty vocabulary. -/
theorem c7_counterexample :
    (load_vocabE ["a"] (-1)).isOk = true ∧ vocabOf ["a"] (-1) = [] :=
  ⟨rfl, rfl⟩

/-- **C7 amended**: vocabulary construction never fails for any `topK`
(the source has no failure path); for `topK ≤ 0` it succeeds with an
empty vocabulary and an all-sentinel token stream, and for `topK > 0` it
also does not fail. -/
theorem c7_amended (ws : List String) (k : Int) :
    (load_vocabE ws k).isOk = true ∧
    (k ≤ 0 → vocabOf ws k = [] ∧
      ∀ t ∈ tokensOf ws (vocabOf ws k), t = -1) := by
  refine ⟨rfl, ?_⟩
  intro hk
  have hv : vocabOf ws k = [] := by
    unfold vocabOf
    rw [Int.toNat_of_nonpos hk]
    rfl
  refine ⟨hv, ?_⟩
  intro t ht
  rw [hv] at ht
  simp only [tokensOf, wordToId, List.mem_map] at ht
  obtain ⟨w, _, hw⟩ := ht
  simp at hw
  omega

/-- Witness for `c7_amended` at `ws = ["a"]`, `k = 0`. -/
theorem c7_amended_witness :
    (load_vocabE ["a"] 0).isOk = true ∧
    ((0 : Int) ≤ 0 ∧ vocabOf ["a"] 0 = [] ∧
      ∀ t ∈ tokensOf ["a"] (vocabOf ["a"] 0), t = -1) :=
  ⟨(c7_amended ["a"] 0).1,
    by decide, ((c7_amended ["a"] 0).2 (by decide)).1,
    ((c7_amended ["a"] 0).2 (by decide)).2⟩

lemma genLoop_sound (predict : Nat → List String → Option String) :
    ∀ fuel count gen cur g, fuel = 50 - count →
      gen ≠ [] → gen.getLast? = some cur →
      (∀ i, i + 1 < gen.length → gen.getD i "" ≠ ".") →
      genLoop predict gen cur count = some g →
      g.length ≤ gen.length + fuel ∧ g.getD 0 "" = gen.getD 0 "" ∧
        ∀ i, i + 1 < g.length → g.getD i "" ≠ "." := by
  intro fuel
  induction fuel with
  | zero =>
    intro count gen cur g hf hne hlast hinv hg
    rw [genLoop] at hg
    rw [dif_neg (by rintro ⟨-, h2⟩; omega)] at hg
    cases hg
    exact ⟨by omega, rfl, hinv⟩
  | succ n ih =>
    intro count gen cur g hf hne hlast hinv hg
    rw [genLoop] at hg
    by_cases hc : cur ≠ "." ∧ count < 50
    · rw [dif_pos hc] at hg
      cases hp : predict count gen with
      | none =>
        rw [hp] at hg
        cases hg
      | some w =>
        rw [hp] at hg
        have hlen : 0 < gen.length := List.length_pos.mpr hne
        have hcur : gen.getD (gen.length - 1) "" = cur := by
          rw [List.getLast?_eq_getElem?] at hlast
          rw [List.getD_eq_getElem?_getD, hlast]
          rfl
        have hinv2 : ∀ i, i + 1 < (gen ++ [w]).length →
            (gen ++ [w]).getD i "" ≠ "." := by
          intro i hi
          simp only [List.length_append, List.length_singleton] at hi
          have hilt : i < gen.length := by omega
          rw [List.getD_append _ _ _ _ hilt]
          by_cases hi2 : i + 1 < gen.length
          · exact hinv i hi2
          · have : i = gen.length - 1 := by omega
            rw [this, hcur]
            exact hc.1
        have ihr := ih (count + 1) (gen ++ [w]) w g (by omega)
          (by simp) (by simp) hinv2 hg
        refine ⟨?_, ?_, ihr.2.2⟩
        · have := ihr.1
          simp only [List.length_append, List.length_singleton] at this
          omega
        · rw [ihr.2.1, List.getD_append _ _ _ _ hlen]
    · rw [dif_neg hc] at hg
      cases hg
      exact ⟨by omega, rfl, hinv⟩

lemma genLoop_total (predict : Nat → List String → Option String)
    (hp : ∀ n s, (predict n s).isSome) :
    ∀ fuel count gen cur, fuel = 50 - count →
      (genLoop predict gen cur count).isSome := by
  intro fuel
  induction fuel with
  | zero =>
    intro count gen cur hf
    rw [genLoop]
    rw [dif_neg (by rintro ⟨-, h2⟩; omega)]
    rfl
  | succ n ih =>
    intro count gen cur hf
    rw [genLoop]
    by_cases hc : cur ≠ "." ∧ count < 50
    · rw [dif_pos hc]
      obtain ⟨w, hw⟩ := Option.isSome_iff_exists.mp (hp count gen)
      rw [hw]
      exact ih (count + 1) (gen ++ [w]) w (by omega)
    · rw [dif_neg hc]
      rfl

/-- **C4**: for a start word in the vocabulary, generation terminates: if
the predictor always answers, the loop produces a result, and any
produced token list has at most 51 entries counting the start word (at
most 50 generated tokens), begins with the start word, and contains the
terminator `"."` at no position other than possibly the last — the loop
stops as soon as `"."` is appended. -/
theorem c4 (vocab : List String)
    (predict : Nat → List String → Option String) (start : String)
    (hs : start ∈ vocab) :
    (∀ g, genLoop predict [start] start 0 = some g →
      g.length ≤ 51 ∧ g.getD 0 "" = start ∧
        ∀ i, i + 1 < g.length → g.getD i "" ≠ ".") ∧
    ((∀ n s, (predict n s).isSome) →
      (genLoop predict [start] start 0).isSome) := by
  constructor
  · intro g hg
    have h := genLoop_sound predict 50 0 [start] start g (by omega)
      (by simp) (by simp) (by intro i hi; simp at hi) hg
    refine ⟨?_, ?_, h.2.2⟩
    · have := h.1
      simp only [List.length_singleton] at this
      omega
    · simpa using h.2.1
  · intro hp
    exact genLoop_total predict hp 50 0 [start] start (by omega)

/-- Witness for `c4`: vocabulary `["a"]`, the constant predictor that
always answers `"."`. -/
theorem c4_witness :
    "a" ∈ ["a"] ∧
    ((∀ g, genLoop (fun _ _ => some ".") ["a"] "a" 0 = some g →
      g.length ≤ 51 ∧ g.getD 0 "" = "a" ∧
        ∀ i, i + 1 < g.length → g.getD i "" ≠ ".") ∧
    ((∀ (n : Nat) (s : List String),
        ((fun (_ : Nat) (_ : List String) => some ".") n s).isSome) →
      (genLoop (fun _ _ => some ".") ["a"] "a" 0).isSome)) :=
  ⟨by decide, c4 ["a"] (fun _ _ => some ".") "a" (by decide)⟩

lemma specRemoveSet_nil_set : ∀ l, specRemoveSet [] l = l
  | [] => rfl
  | [c] => rfl
  | c :: q :: rest => by
    simp only [specRemoveSet]
    rw [if_neg (by rintro ⟨-, h2⟩; cases h2)]
    rw [specRemoveSet_nil_set (q :: rest)]

lemma specRemoveSet_congr (S T : List Char) (h : ∀ c, c ∈ S ↔ c ∈ T) :
    ∀ l, specRemoveSet S l = specRemoveSet T l
  | [] => rfl
  | [c] => rfl
  | c :: q :: rest => by
    simp only [specRemoveSet]
    by_cases hc : c = ' ' ∧ q ∈ S
    · rw [if_pos hc, if_pos ⟨hc.1, (h q).mp hc.2⟩]
      exact specRemoveSet_congr S T h (q :: rest)
    · rw [if_neg hc, if_neg (by rintro ⟨h1, h2⟩; exact hc ⟨h1, (h q).mpr h2⟩)]
      rw [specRemoveSet_congr S T h (q :: rest)]

lemma specRemoveSet_cons_ne_space (S : List Char) {q : Char} (hq : q ≠ ' ')
    (t : List Char) : specRemoveSet S (q :: t) = q :: specRemoveSet S t := by
  cases t with
  | nil => rfl
  | cons b bs =>
    simp only [specRemoveSet]
    rw [if_neg (by rintro ⟨h1, -⟩; exact hq h1)]

lemma removeSpaceBeforeChar_cons_ne_space (p : Char) {a : Char}
    (ha : a ≠ ' ') (t : List Char) :
    removeSpaceBeforeChar p (a :: t) = a :: removeSpaceBeforeChar p t := by
  cases t with
  | nil => rfl
  | cons b bs =>
    simp only [removeSpaceBeforeChar]
    rw [if_neg (by simp [ha])]

lemma removeSpaceBefore_specRemoveSet (p : Char) (S : List Char)
    (hp : p ≠ ' ') (hpS : p ∉ S) :
    ∀ l, isolatedSpaces l →
      removeSpaceBeforeChar p (specRemoveSet S l) = specRemoveSet (p :: S) l
  | [], _ => rfl
  | [c], _ => rfl
  | c :: q :: rest, hiso => by
    have htail : isolatedSpaces (q :: rest) :=
      (List.chain'_cons.mp hiso).2
    have htail2 : isolatedSpaces rest := htail.tail
    by_cases hcsp : c = ' '
    · by_cases hqS : q ∈ S
      · rw [show specRemoveSet S (c :: q :: rest) =
              specRemoveSet S (q :: rest) by
            simp only [specRemoveSet]; rw [if_pos ⟨hcsp, hqS⟩]]
        rw [show specRemoveSet (p :: S) (c :: q :: rest) =
              specRemoveSet (p :: S) (q :: rest) by
            simp only [specRemoveSet]
            rw [if_pos ⟨hcsp, List.mem_cons_of_mem p hqS⟩]]
        exact removeSpaceBefore_specRemoveSet p S hp hpS (q :: rest) htail
      · by_cases hqp : q = p
        · subst hqp
          have hq' : q ≠ ' ' := hp
          rw [show specRemoveSet S (c :: q :: rest) =
                c :: q :: specRemoveSet S rest by
              simp only [specRemoveSet]
              rw [if_neg (by rintro ⟨-, h2⟩; exact hqS h2)]
              rw [specRemoveSet_cons_ne_space S hq' rest]]
          subst hcsp
          rw [show removeSpaceBeforeChar q (' ' :: q :: specRemoveSet S rest) =
                q :: removeSpaceBeforeChar q (specRemoveSet S rest) by
              simp only [removeSpaceBeforeChar]
              rw [if_pos (by simp)]]
          rw [removeSpaceBefore_specRemoveSet q S hp hpS rest htail2]
          simp only [specRemoveSet]
          rw [if_pos (by simp)]
          rw [specRemoveSet_cons_ne_space (q :: S) hq' rest]
        · have hq' : q ≠ ' ' := by
            have := (List.chain'_cons.mp hiso).1
            intro hq
            exact this ⟨hcsp, hq⟩
          rw [show specRemoveSet S (c :: q :: rest) =
                c :: q :: specRemoveSet S rest by
              simp only [specRemoveSet]
              rw [if_neg (by rintro ⟨-, h2⟩; exact hqS h2)]
              rw [specRemoveSet_cons_ne_space S hq' rest]]
          subst hcsp
          rw [show removeSpaceBeforeChar p (' ' :: q :: specRemoveSet S rest) =
                ' ' :: removeSpaceBeforeChar p (q :: specRemoveSet S rest) by
              simp only [removeSpaceBeforeChar]
              rw [if_neg (by simp [hqp])]]
          rw [removeSpaceBeforeChar_cons_ne_space p hq' _]
          rw [removeSpaceBefore_specRemoveSet p S hp hpS rest htail2]
          rw [show specRemoveSet (p :: S) (' ' :: q :: rest) =
                ' ' :: specRemoveSet (p :: S) (q :: rest) by
              simp only [specRemoveSet]
              rw [if_neg (by
                rintro ⟨-, h2⟩
                rcases List.mem_cons.mp h2 with h3 | h3
                · exact hqp h3
                · exact hqS h3)]]
          rw [specRemoveSet_cons_ne_space (p :: S) hq' rest]
    · rw [show specRemoveSet S (c :: q :: rest) =
            c :: specRemoveSet S (q :: rest) by
          simp only [specRemoveSet]
          rw [if_neg (by rintro ⟨h1, -⟩; exact hcsp h1)]]
      rw [removeSpaceBeforeChar_cons_ne_space p hcsp _]
      rw [removeSpaceBefore_specRemoveSet p S hp hpS (q :: rest) htail]
      rw [show specRemoveSet (p :: S) (c :: q :: rest) =
            c :: specRemoveSet (p :: S) (q :: rest) by
          simp only [specRemoveSet]
          rw [if_neg (by rintro ⟨h1, -⟩; exact hcsp h1)]]

lemma detok_foldl (ps : List Char) :
    ps.Nodup → (∀ p ∈ ps, p ≠ ' ') →
    ∀ (S : List Char) (l : List Char), isolatedSpaces l →
      (∀ p ∈ ps, p ∉ S) →
      ps.foldl (fun acc p => removeSpaceBeforeChar p acc)
        (specRemoveSet S l) = specRemoveSet (ps.reverse ++ S) l := by
  induction ps with
  | nil =>
    intro _ _ S l _ _
    simp
  | cons p ps ih =>
    intro hnd hsp S l hiso hdisj
    rw [List.foldl_cons]
    rw [removeSpaceBefore_specRemoveSet p S (hsp p (List.mem_cons_self p ps))
      (hdisj p (List.mem_cons_self p ps)) l hiso]
    rw [ih (List.Nodup.of_cons hnd)
      (fun q hq => hsp q (List.mem_cons_of_mem p hq)) (p :: S) l hiso
      (by
        intro q hq
        rw [List.mem_cons]
        rintro (h1 | h1)
        · subst h1
          exact (List.nodup_cons.mp hnd).1 hq
        · exact hdisj q (List.mem_cons_of_mem p hq) h1)]
    apply specRemoveSet_congr
    intro c
    simp only [List.mem_append, List.mem_reverse, List.mem_cons]
    tauto

lemma isolatedSpaces_of_no_space :
    ∀ {l : List Char}, (∀ c ∈ l, c ≠ ' ') → isolatedSpaces l
  | [], _ => List.chain'_nil
  | [_], _ => List.chain'_singleton _
  | a :: b :: t, h => by
    rw [isolatedSpaces, List.chain'_cons]
    exact ⟨fun hab => h a (List.mem_cons_self _ _) hab.1,
      isolatedSpaces_of_no_space (fun c hc => h c (List.mem_cons_of_mem a hc))⟩

lemma head?_joinChars (w : String) (ws : List String) (hw : w.data ≠ []) :
    (joinChars (w :: ws)).head? = w.data.head? := by
  cases ws with
  | nil => rfl
  | cons x xs =>
    show (w.data ++ ' ' :: joinChars (x :: xs)).head? = w.data.head?
    rw [List.head?_append]
    cases hd : w.data with
    | nil => exact absurd hd hw
    | cons a t => rfl

lemma isolatedSpaces_joinChars :
    ∀ ts : List String, (∀ t ∈ ts, t.data ≠ [] ∧ ' ' ∉ t.data) →
      isolatedSpaces (joinChars ts)
  | [], _ => List.chain'_nil
  | [w], h =>
    isolatedSpaces_of_no_space
      (fun c hc hcsp => (h w (List.mem_cons_self _ _)).2 (hcsp ▸ hc))
  | w :: x :: xs, h => by
    have hw := h w (List.mem_cons_self _ _)
    have htail : ∀ t ∈ x :: xs, t.data ≠ [] ∧ ' ' ∉ t.data :=
      fun t ht => h t (List.mem_cons_of_mem w ht)
    show isolatedSpaces (w.data ++ ' ' :: joinChars (x :: xs))
    rw [isolatedSpaces, List.chain'_append]
    refine ⟨isolatedSpaces_of_no_space
      (fun c hc hcsp => hw.2 (hcsp ▸ hc)), ?_, ?_⟩
    · rw [List.chain'_cons']
      constructor
      · intro y hy
        rw [head?_joinChars x xs (htail x (List.mem_cons_self _ _)).1] at hy
        have hyx : y ∈ x.data := List.mem_of_mem_head? hy
        rintro ⟨-, hy2⟩
        exact (htail x (List.mem_cons_self _ _)).2 (hy2 ▸ hyx)
      · exact isolatedSpaces_joinChars (x :: xs) htail
    · intro z hz y hy
      have hzw : z ∈ w.data := List.mem_of_getLast?_eq_some hz
      rintro ⟨hz2, -⟩
      exact hw.2 (hz2 ▸ hzw)

/-- **C9**: for a token list of non-empty, space-free tokens (the shape of
every generated token list), the source's sequence of six
`replace(" p", p)` passes equals the single-pass detokenization that
deletes exactly the space immediately preceding each occurrence of one of
`, . ; ! : ?` and deletes no space preceding anything else. -/
theorem c9 (ts : List String)
    (h : ∀ t ∈ ts, t.data ≠ [] ∧ ' ' ∉ t.data) :
    detokChars (joinChars ts) = specRemoveSet puncs (joinChars ts) := by
  have hiso := isolatedSpaces_joinChars ts h
  have hmain := detok_foldl puncs (by decide) (by decide) [] (joinChars ts)
    hiso (by simp)
  rw [specRemoveSet_nil_set] at hmain
  unfold detokChars
  rw [hmain]
  refine specRemoveSet_congr _ _ ?_ _
  intro c
  simp only [List.mem_append, List.mem_reverse]
  simp [puncs]

/-- Witness for `c9`: tokens `["a", ",", "b", "."]`, giving
`"a , b ."` before and `"a, b."` after detokenization. -/
theorem c9_witness :
    (∀ t ∈ (["a", ",", "b", "."] : List String),
      t.data ≠ [] ∧ ' ' ∉ t.data) ∧
    detokChars (joinChars ["a", ",", "b", "."]) =
      specRemoveSet puncs (joinChars ["a", ",", "b", "."]) :=
  ⟨by decide, c9 ["a", ",", "b", "."] (by decide)⟩

lemma rowMatch_iff {mlag i : Nat} {key r : List Int}
    (hr : r.length = mlag + 1) (hi1 : 1 ≤ i) (hik : i ≤ key.length)
    (hkm : key.length ≤ mlag) :
    rowCtx mlag i r = subKeyOf key i ↔ specRowMatch mlag i key r := by
  have him : i ≤ mlag := le_trans hik hkm
  have hlen1 : (rowCtx mlag i r).length = i := by
    simp only [rowCtx, List.length_take, List.length_drop, hr]
    omega
  have hlen2 : (subKeyOf key i).length = i := by
    simp only [subKeyOf, List.length_drop]
    omega
  have hctx : ∀ j (hj : j < i), (rowCtx mlag i r).get ⟨j, by omega⟩ =
      r.getD (mlag - i + j) 0 := by
    intro j hj
    have hidx : mlag - i + j < r.length := by omega
    rw [List.get_eq_getElem]
    simp only [rowCtx]
    rw [List.getElem_take, List.getElem_drop]
    rw [List.getD_eq_getElem r 0 hidx]
  have hsub : ∀ j (hj : j < i), (subKeyOf key i).get ⟨j, by omega⟩ =
      key.getD (key.length - i + j) 0 := by
    intro j hj
    have hidx : key.length - i + j < key.length := by omega
    rw [List.get_eq_getElem]
    simp only [subKeyOf]
    rw [List.getElem_drop]
    rw [List.getD_eq_getElem key 0 hidx]
  constructor
  · intro he j hj
    rw [← hctx j hj, ← hsub j hj]
    simp only [List.get_eq_getElem]
    congr 1
  · intro hm
    apply List.ext_getElem (by rw [hlen1, hlen2])
    intro j h1 h2
    have hj : j < i := by rwa [hlen1] at h1
    have e1 := hctx j hj
    have e2 := hsub j hj
    simp only [List.get_eq_getElem] at e1 e2
    rw [e1, e2]
    exact hm j hj

lemma rowMatch_beq {mlag i : Nat} {key r : List Int}
    (hr : r.length = mlag + 1) (hi1 : 1 ≤ i) (hik : i ≤ key.length)
    (hkm : key.length ≤ mlag) :
    (rowCtx mlag i r == subKeyOf key i) =
      decide (specRowMatch mlag i key r) := by
  by_cases h : specRowMatch mlag i key r
  · have he := (rowMatch_iff hr hi1 hik hkm).mpr h
    simp [he, h]
  · have he : rowCtx mlag i r ≠ subKeyOf key i :=
      fun he2 => h ((rowMatch_iff hr hi1 hik hkm).mp he2)
    simp [he, h]

lemma levelTargets_eq_spec {M : List (List Int)} {mlag i : Nat}
    {key : List Int} (hrows : ∀ r ∈ M, r.length = mlag + 1)
    (hi1 : 1 ≤ i) (hik : i ≤ key.length) (hkm : key.length ≤ mlag) :
    levelTargets M mlag key i = specLevelTargets M mlag key i := by
  unfold levelTargets specLevelTargets
  congr 1
  refine List.filter_congr ?_
  intro r hr
  exact rowMatch_beq (hrows r hr) hi1 hik hkm

lemma poolAux_eq_spec {M : List (List Int)} {mlag : Nat} {key : List Int}
    (hrows : ∀ r ∈ M, r.length = mlag + 1) (hkm : key.length ≤ mlag) :
    ∀ m, m ≤ key.length →
      poolAux M mlag key m =
        (((List.range m).reverse).flatMap
            (fun j => specLevelTargets M mlag key (j + 1)),
         ((List.range m).reverse).flatMap (fun j =>
            List.replicate (specLevelTargets M mlag key (j + 1)).length
              ((1 : ℚ) /
                ((specLevelTargets M mlag key (j + 1)).length : ℚ)))) := by
  intro m
  induction m with
  | zero =>
    intro _
    simp [poolAux]
  | succ n ih =>
    intro hm
    have hlt : levelTargets M mlag key (n + 1) =
        specLevelTargets M mlag key (n + 1) :=
      levelTargets_eq_spec hrows (by omega) (by omega) hkm
    simp only [poolAux]
    rw [List.range_succ, List.reverse_append]
    simp only [List.reverse_cons, List.reverse_nil, List.nil_append,
      List.flatMap_cons]
    rw [ih (by omega)]
    by_cases hts : levelTargets M mlag key (n + 1) = []
    · rw [if_pos (by simp [hts])]
      rw [hlt] at hts
      simp [hts]
    · rw [if_neg (by simp [hts])]
      rw [hlt]
      simp [List.flatMap_append]

lemma pickWeighted_mem :
    ∀ (cs : List Int) (ps : List ℚ) (u : ℚ), cs.length = ps.length →
      0 ≤ u → u < ps.sum → ∃ c ∈ cs, pickWeighted cs ps u = some c := by
  intro cs
  induction cs with
  | nil =>
    intro ps u hl h0 hs
    have hps : ps = [] := List.eq_nil_of_length_eq_zero (by simpa using hl.symm)
    subst hps
    simp only [List.sum_nil] at hs
    linarith
  | cons c cs ih =>
    intro ps u hl h0 hs
    cases ps with
    | nil => simp at hl
    | cons p ps2 =>
      simp only [pickWeighted]
      by_cases hu : u < p
      · rw [if_pos hu]
        exact ⟨c, List.mem_cons_self _ _, rfl⟩
      · rw [if_neg hu]
        have hle : p ≤ u := not_lt.mp hu
        have hs2 : u - p < ps2.sum := by
          rw [List.sum_cons] at hs
          linarith
        obtain ⟨c2, hc2, he⟩ := ih ps2 (u - p) (by simpa using hl)
          (by linarith) hs2
        exact ⟨c2, List.mem_cons_of_mem c hc2, he⟩

lemma poolAux_length (M : List (List Int)) (mlag : Nat) (key : List Int) :
    ∀ m, (poolAux M mlag key m).1.length = (poolAux M mlag key m).2.length := by
  intro m
  induction m with
  | zero => rfl
  | succ n ih =>
    simp only [poolAux]
    by_cases hts : levelTargets M mlag key (n + 1) = []
    · rw [if_pos (by simp [hts])]
      exact ih
    · rw [if_neg (by simp [hts])]
      simp only [List.length_append, List.length_replicate]
      omega

lemma poolAux_weights_pos (M : List (List Int)) (mlag : Nat)
    (key : List Int) :
    ∀ m, ∀ w ∈ (poolAux M mlag key m).2, 0 < w := by
  intro m
  induction m with
  | zero => intro w hw; cases hw
  | succ n ih =>
    intro w hw
    simp only [poolAux] at hw
    by_cases hts : levelTargets M mlag key (n + 1) = []
    · rw [if_pos (by simp [hts])] at hw
      exact ih w hw
    · rw [if_neg (by simp [hts])] at hw
      rcases List.mem_append.mp hw with h | h
      · rcases (List.mem_replicate.mp h) with ⟨-, rfl⟩
        have hpos : 0 < (levelTargets M mlag key (n + 1)).length :=
          List.length_pos.mpr hts
        positivity
      · exact ih w h

lemma poolAux_mem_targets (M : List (List Int)) (mlag : Nat)
    (key : List Int) :
    ∀ m c, c ∈ (poolAux M mlag key m).1 → ∃ r ∈ M, c = r.getD mlag 0 := by
  intro m
  induction m with
  | zero => intro c hc; cases hc
  | succ n ih =>
    intro c hc
    simp only [poolAux] at hc
    by_cases hts : levelTargets M mlag key (n + 1) = []
    · rw [if_pos (by simp [hts])] at hc
      exact ih c hc
    · rw [if_neg (by simp [hts])] at hc
      rcases List.mem_append.mp hc with h | h
      · unfold levelTargets at h
        rcases List.mem_map.mp h with ⟨r, hr, rfl⟩
        exact ⟨r, (List.mem_filter.mp hr).1, rfl⟩
      · exact ih c h

lemma sum_map_div (l : List ℚ) (s : ℚ) :
    (l.map (fun x => x / s)).sum = l.sum / s := by
  induction l with
  | nil => simp
  | cons a t ih => simp [ih, add_div]

lemma probs_sum_one {ws : List ℚ} (hne : ws ≠ [])
    (hpos : ∀ w ∈ ws, 0 < w) :
    (ws.map (fun w => w / ws.sum)).sum = 1 := by
  have hs : 0 < ws.sum := List.sum_pos ws hpos hne
  rw [sum_map_div]
  exact div_self (ne_of_gt hs)

/-- **C1**: for a trailing-id key of length `1 ≤ L ≤ mlag` (rows being
width-`mlag+1` as the TransitionTable guarantees), the back-off loop
accumulates, for every level `i` from `L` down to `1`, the target values
of all rows whose context columns `[mlag-i, mlag)` equal the trailing-`i`
suffix of the key, each with weight `1/(rows matched at that level)` —
levels are summed, never short-circuited — and when the pool is
non-empty the normalized weights sum to `1` and the draw picks a pooled
candidate. -/
theorem c1 (M : List (List Int)) (mlag : Nat) (key : List Int)
    (hrows : ∀ r ∈ M, r.length = mlag + 1)
    (h1 : 1 ≤ key.length) (h2 : key.length ≤ mlag) :
    (next_word_pool M mlag key).1 = specPool M mlag key ∧
    (next_word_pool M mlag key).2 = specWeights M mlag key ∧
    ((next_word_pool M mlag key).1 ≠ [] →
      ((next_word_pool M mlag key).2.map
          (fun w => w / (next_word_pool M mlag key).2.sum)).sum = 1 ∧
      ∀ u : ℚ, 0 ≤ u → u < 1 →
        ∃ c ∈ (next_word_pool M mlag key).1,
          pickWeighted (next_word_pool M mlag key).1
            ((next_word_pool M mlag key).2.map
              (fun w => w / (next_word_pool M mlag key).2.sum)) u =
            some c) := by
  have hmain := poolAux_eq_spec hrows h2 key.length (le_refl _)
  have e1 : (next_word_pool M mlag key).1 = specPool M mlag key := by
    unfold next_word_pool specPool
    rw [hmain]
  have e2 : (next_word_pool M mlag key).2 = specWeights M mlag key := by
    unfold next_word_pool specWeights
    rw [hmain]
  refine ⟨e1, e2, ?_⟩
  intro hne
  have hlen : (next_word_pool M mlag key).1.length =
      (next_word_pool M mlag key).2.length :=
    poolAux_length M mlag key key.length
  have hwne : (next_word_pool M mlag key).2 ≠ [] := by
    intro h
    apply hne
    apply List.eq_nil_of_length_eq_zero
    rw [hlen, h]
    rfl
  have hpos : ∀ w ∈ (next_word_pool M mlag key).2, 0 < w :=
    poolAux_weights_pos M mlag key key.length
  have hsum := probs_sum_one hwne hpos
  refine ⟨hsum, ?_⟩
  intro u hu0 hu1
  apply pickWeighted_mem
  · rw [hlen, List.length_map]
  · exact hu0
  · rw [hsum]
    exact hu1

/-- Witness for `c1`: `M = [[0, 1], [1, 0]]`, `mlag = 1`, `key = [0]`. -/
theorem c1_witness :
    (∀ r ∈ ([[0, 1], [1, 0]] : List (List Int)), r.length = 1 + 1) ∧
    1 ≤ ([0] : List Int).length ∧ ([0] : List Int).length ≤ 1 ∧
    ((next_word_pool [[0, 1], [1, 0]] 1 [0]).1 = specPool [[0, 1], [1, 0]] 1 [0] ∧
     (next_word_pool [[0, 1], [1, 0]] 1 [0]).2 = specWeights [[0, 1], [1, 0]] 1 [0] ∧
     ((next_word_pool [[0, 1], [1, 0]] 1 [0]).1 ≠ [] →
       ((next_word_pool [[0, 1], [1, 0]] 1 [0]).2.map
           (fun w => w / (next_word_pool [[0, 1], [1, 0]] 1 [0]).2.sum)).sum = 1 ∧
       ∀ u : ℚ, 0 ≤ u → u < 1 →
         ∃ c ∈ (next_word_pool [[0, 1], [1, 0]] 1 [0]).1,
           pickWeighted (next_word_pool [[0, 1], [1, 0]] 1 [0]).1
             ((next_word_pool [[0, 1], [1, 0]] 1 [0]).2.map
               (fun w => w / (next_word_pool [[0, 1], [1, 0]] 1 [0]).2.sum)) u =
             some c)) :=
  ⟨by decide, by decide, by decide,
    c1 [[0, 1], [1, 0]] 1 [0] (by decide) (by decide) (by decide)⟩

lemma build_matrix_some {mlag : Nat} {tokens : List Int}
    {M : List (List Int)} (h : build_matrix mlag tokens = some M) :
    1 ≤ mlag ∧ mlag + 1 ≤ tokens.length ∧
      M = (windows tokens (mlag + 1)).filter keepRow := by
  unfold build_matrix at h
  by_cases h1 : tokens.length < mlag + 1
  · rw [if_pos h1] at h
    cases h
  · rw [if_neg h1] at h
    by_cases h2 : mlag + 1 < 2
    · rw [if_pos h2] at h
      cases h
    · rw [if_neg h2] at h
      exact ⟨by omega, by omega, (Option.some_inj.mp h).symm⟩

lemma M_row_target {mlag : Nat} {tokens : List Int} {M : List (List Int)}
    (hM : build_matrix mlag tokens = some M) {r : List Int} (hr : r ∈ M) :
    r.getD mlag 0 ∈ tokens ∧ r.getD mlag 0 ≠ -1 := by
  obtain ⟨hm1, hm2, hMe⟩ := build_matrix_some hM
  subst hMe
  have hw := (List.mem_filter.mp hr).1
  have hk := (List.mem_filter.mp hr).2
  have hlen : r.length = mlag + 1 := mem_windows_length (by omega) hw
  constructor
  · have hidx : mlag < r.length := by omega
    rw [List.getD_eq_getElem r 0 hidx]
    exact mem_windows_subset hw _ (List.getElem_mem hidx)
  · unfold keepRow at hk
    rw [Bool.and_eq_true] at hk
    have h1 := hk.1
    rw [show r.length - 1 = mlag from by omega] at h1
    simpa using h1

lemma mem_tokensOf_valid {ws vocab : List String} {t : Int}
    (ht : t ∈ tokensOf ws vocab) (hne : t ≠ -1) :
    0 ≤ t ∧ t.toNat < vocab.length := by
  simp only [tokensOf, List.mem_map] at ht
  obtain ⟨w, hw, he⟩ := ht
  unfold wordToId at he
  by_cases hv : w ∈ vocab
  · rw [if_pos hv] at he
    simp only [Option.getD_some] at he
    rw [← he]
    refine ⟨Int.natCast_nonneg _, ?_⟩
    rw [Int.toNat_natCast]
    exact List.indexOf_lt_length.mpr hv
  · rw [if_neg hv] at he
    simp only [Option.getD_none] at he
    exact absurd he.symm hne

lemma idToWord_valid {vocab : List String} {t : Int} (h0 : 0 ≤ t)
    (hlt : t.toNat < vocab.length) :
    ∃ w ∈ vocab, idToWord vocab t = some w := by
  unfold idToWord
  rw [dif_pos ⟨h0, hlt⟩]
  exact ⟨vocab.get ⟨t.toNat, hlt⟩, List.get_mem _ _ _, rfl⟩

lemma idToWord_mem_of_eq {vocab : List String} {t : Int} {w : String}
    (h : idToWord vocab t = some w) : w ∈ vocab := by
  unfold idToWord at h
  by_cases hd : 0 ≤ t ∧ t.toNat < vocab.length
  · rw [dif_pos hd] at h
    rw [← Option.some_inj.mp h]
    exact List.get_mem _ _ _
  · rw [dif_neg hd] at h
    cases h

lemma bigFallback_some {tokens : List Int} {r : Nat}
    (hvne : (tokens.filter (fun t => !(t == -1))).length ≠ 0) :
    ∃ tv, bigFallback tokens r = some tv ∧ tv ∈ tokens ∧ tv ≠ -1 := by
  unfold bigFallback
  rw [dif_neg hvne]
  have hmem := List.get_mem (tokens.filter (fun t => !(t == -1)))
    (r % (tokens.filter (fun t => !(t == -1))).length)
    (Nat.mod_lt r (Nat.pos_of_ne_zero hvne))
  refine ⟨_, rfl, (List.mem_filter.mp hmem).1, ?_⟩
  have h2 := (List.mem_filter.mp hmem).2
  simpa using h2

lemma lookupOpt_mem {vocab : List String} {o : Option Int} {w : String}
    (h : lookupOpt vocab o = some w) : w ∈ vocab := by
  cases o with
  | none => cases h
  | some t => exact idToWord_mem_of_eq h

/-- **C3, counterexample to the claim as stated**: the parenthetical
equivalence is false.  With cleaned corpus `["a", "b"]`, `topK = 1` and
`mlag = 1`, the token stream is `[0, -1]` — it has a non-sentinel
position — yet the built TransitionTable is empty (its only window has a
sentinel target), so "TransitionTable non-empty" and "TokenStream contains
a non-sentinel position" are not equivalent. -/
theorem c3_counterexample :
    build_matrix 1 (tokensOf (cleanWords ["a", "b"])
      (vocabOf (cleanWords ["a", "b"]) 1)) = some [] ∧
    ¬ ((([] : List (List Int)) ≠ []) ↔
      ∃ t ∈ tokensOf (cleanWords ["a", "b"])
        (vocabOf (cleanWords ["a", "b"]) 1), t ≠ -1) := by
  have hv : vocabOf (cleanWords ["a", "b"]) 1 = ["a"] := by
    unfold vocabOf
    rw [List.mergeSort_of_sorted (by decide)]
    rfl
  rw [hv]
  constructor
  · decide
  · intro hiff
    have h2 : ∃ t ∈ tokensOf (cleanWords ["a", "b"]) ["a"], t ≠ -1 := by
      decide
    exact (by decide : ¬(([] : List (List Int)) ≠ [])) (hiff.mpr h2)

/-- **C3 amended**: under the precondition that the TransitionTable is
non-empty (which implies — but is not implied by — the TokenStream
containing a non-sentinel position), `next_word` never fails and returns
a vocabulary word, never the sentinel or an invalid id, for every
`recentWords` input and every random draw; and when zero rows match at
every back-off level the returned token is the vocabulary word of an id
drawn from the TokenStream's non-sentinel positions. -/
theorem c3 (ws : List String) (k : Int) (mlag : Nat) (M : List (List Int))
    (hM : build_matrix mlag
      (tokensOf (cleanWords ws) (vocabOf (cleanWords ws) k)) = some M)
    (hne : M ≠ []) (key_words : List String) (u : ℚ) (r : Nat)
    (hu0 : 0 ≤ u) (hu1 : u < 1) :
    (∃ t ∈ tokensOf (cleanWords ws) (vocabOf (cleanWords ws) k), t ≠ -1) ∧
    (∃ w ∈ vocabOf (cleanWords ws) k,
      next_word (vocabOf (cleanWords ws) k) M mlag
        (tokensOf (cleanWords ws) (vocabOf (cleanWords ws) k))
        key_words u r = some w) ∧
    ((next_word_pool M mlag
        (keyIdsOf (vocabOf (cleanWords ws) k) mlag key_words)).1 = [] →
      ∃ t ∈ tokensOf (cleanWords ws) (vocabOf (cleanWords ws) k),
        t ≠ -1 ∧
        next_word (vocabOf (cleanWords ws) k) M mlag
          (tokensOf (cleanWords ws) (vocabOf (cleanWords ws) k))
          key_words u r =
          idToWord (vocabOf (cleanWords ws) k) t) := by
  set vocab := vocabOf (cleanWords ws) k with hvocab
  set tokens := tokensOf (cleanWords ws) vocab with htokens
  obtain ⟨r0, hr0⟩ := List.exists_mem_of_ne_nil M hne
  have htar := M_row_target hM hr0
  have hT : ∃ t ∈ tokens, t ≠ -1 := ⟨r0.getD mlag 0, htar.1, htar.2⟩
  refine ⟨hT, ?_⟩
  by_cases hpool :
    (next_word_pool M mlag (keyIdsOf vocab mlag key_words)).1 = []
  · obtain ⟨t0, ht0, htne⟩ := hT
    have hvmem : t0 ∈ tokens.filter (fun t => !(t == -1)) :=
      List.mem_filter.mpr ⟨ht0, by simp [htne]⟩
    have hvne : (tokens.filter (fun t => !(t == -1))).length ≠ 0 := by
      intro hz
      rw [List.eq_nil_of_length_eq_zero hz] at hvmem
      cases hvmem
    obtain ⟨tv, hbfe, htv1, htv2⟩ := bigFallback_some (r := r) hvne
    have hvalid2 := mem_tokensOf_valid htv1 htv2
    obtain ⟨wv, hwv, hwe⟩ := idToWord_valid hvalid2.1 hvalid2.2
    have hnw : next_word vocab M mlag tokens key_words u r =
        idToWord vocab tv := by
      unfold next_word
      rw [if_pos (by simp [hpool]), hbfe]
      rfl
    refine ⟨⟨wv, hwv, by rw [hnw, hwe]⟩, ?_⟩
    intro _
    exact ⟨tv, htv1, htv2, hnw⟩
  · have hlen :
        (next_word_pool M mlag (keyIdsOf vocab mlag key_words)).1.length =
        (next_word_pool M mlag (keyIdsOf vocab mlag key_words)).2.length :=
      poolAux_length M mlag (keyIdsOf vocab mlag key_words)
        (keyIdsOf vocab mlag key_words).length
    have hwne :
        (next_word_pool M mlag (keyIdsOf vocab mlag key_words)).2 ≠ [] := by
      intro h
      apply hpool
      apply List.eq_nil_of_length_eq_zero
      rw [hlen, h]
      rfl
    have hpos : ∀ w ∈
        (next_word_pool M mlag (keyIdsOf vocab mlag key_words)).2, 0 < w :=
      poolAux_weights_pos M mlag (keyIdsOf vocab mlag key_words)
        (keyIdsOf vocab mlag key_words).length
    have hsum := probs_sum_one hwne hpos
    obtain ⟨c0, hc0, hpick⟩ := pickWeighted_mem
      (next_word_pool M mlag (keyIdsOf vocab mlag key_words)).1
      ((next_word_pool M mlag (keyIdsOf vocab mlag key_words)).2.map
        (fun w => w /
          (next_word_pool M mlag (keyIdsOf vocab mlag key_words)).2.sum)) u
      (by rw [hlen, List.length_map]) hu0 (by rw [hsum]; exact hu1)
    obtain ⟨rr, hrr, rfl⟩ := poolAux_mem_targets M mlag
      (keyIdsOf vocab mlag key_words)
      (keyIdsOf vocab mlag key_words).length c0 hc0
    have htar2 := M_row_target hM hrr
    have hval := mem_tokensOf_valid htar2.1 htar2.2
    obtain ⟨w0, hw0, hwe0⟩ := idToWord_valid hval.1 hval.2
    have hnw : next_word vocab M mlag tokens key_words u r =
        idToWord vocab (rr.getD mlag 0) := by
      unfold next_word
      rw [if_neg (by simp [List.isEmpty_iff, hpool]), hpick]
      rfl
    refine ⟨⟨w0, hw0, by rw [hnw, hwe0]⟩, ?_⟩
    intro hcontra
    exact absurd hcontra hpool

/-- Witness for `c3`: cleaned corpus `["a", "b", "a"]`, `topK = 10`,
`mlag = 1`; the table is `[[0, 1], [1, 0]]`. -/
theorem c3_witness :
    build_matrix 1 (tokensOf (cleanWords ["a", "b", "a"])
      (vocabOf (cleanWords ["a", "b", "a"]) 10)) =
      some [[0, 1], [1, 0]] ∧
    ([[0, 1], [1, 0]] : List (List Int)) ≠ [] ∧
    (0 : ℚ) ≤ 0 ∧ (0 : ℚ) < 1 ∧
    ((∃ t ∈ tokensOf (cleanWords ["a", "b", "a"])
        (vocabOf (cleanWords ["a", "b", "a"]) 10), t ≠ -1) ∧
     (∃ w ∈ vocabOf (cleanWords ["a", "b", "a"]) 10,
       next_word (vocabOf (cleanWords ["a", "b", "a"]) 10) [[0, 1], [1, 0]]
         1 (tokensOf (cleanWords ["a", "b", "a"])
           (vocabOf (cleanWords ["a", "b", "a"]) 10)) ["a"] 0 0 = some w) ∧
     ((next_word_pool [[0, 1], [1, 0]] 1
         (keyIdsOf (vocabOf (cleanWords ["a", "b", "a"]) 10) 1 ["a"])).1 =
           [] →
       ∃ t ∈ tokensOf (cleanWords ["a", "b", "a"])
           (vocabOf (cleanWords ["a", "b", "a"]) 10),
         t ≠ -1 ∧
         next_word (vocabOf (cleanWords ["a", "b", "a"]) 10)
           [[0, 1], [1, 0]] 1 (tokensOf (cleanWords ["a", "b", "a"])
             (vocabOf (cleanWords ["a", "b", "a"]) 10)) ["a"] 0 0 =
           idToWord (vocabOf (cleanWords ["a", "b", "a"]) 10) t)) := by
  have hv : vocabOf (cleanWords ["a", "b", "a"]) 10 = ["a", "b"] := by
    unfold vocabOf
    rw [List.mergeSort_of_sorted (by decide)]
    rfl
  have hM : build_matrix 1 (tokensOf (cleanWords ["a", "b", "a"])
      (vocabOf (cleanWords ["a", "b", "a"]) 10)) = some [[0, 1], [1, 0]] := by
    rw [hv]
    decide
  exact ⟨hM, by decide, by decide, by decide,
    c3 ["a", "b", "a"] 10 1 [[0, 1], [1, 0]] hM (by decide) ["a"] 0 0
      (by decide) (by decide)⟩

lemma genLoop_mem (predict : Nat → List String → Option String) :
    ∀ fuel count gen cur g, fuel = 50 - count →
      genLoop predict gen cur count = some g →
      ∀ x ∈ g, x ∈ gen ∨ ∃ n s, predict n s = some x := by
  intro fuel
  induction fuel with
  | zero =>
    intro count gen cur g hf hg x hx
    rw [genLoop] at hg
    rw [dif_neg (by rintro ⟨-, h2⟩; omega)] at hg
    cases hg
    exact Or.inl hx
  | succ n ih =>
    intro count gen cur g hf hg x hx
    rw [genLoop] at hg
    by_cases hc : cur ≠ "." ∧ count < 50
    · rw [dif_pos hc] at hg
      cases hp : predict count gen with
      | none =>
        rw [hp] at hg
        cases hg
      | some w =>
        rw [hp] at hg
        rcases ih (count + 1) (gen ++ [w]) w g (by omega) hg x hx with
          h1 | h1
        · rcases List.mem_append.mp h1 with h2 | h2
          · exact Or.inl h2
          · have hxw : x = w := by simpa using h2
            exact Or.inr ⟨count, gen, hxw ▸ hp⟩
        · exact Or.inr h1
    · rw [dif_neg hc] at hg
      cases hg
      exact Or.inl hx

lemma next_word_mem_vocab {vocab : List String} {M : List (List Int)}
    {mlag : Nat} {tokens : List Int} {kw : List String} {u : ℚ} {r : Nat}
    {w : String} (h : next_word vocab M mlag tokens kw u r = some w) :
    w ∈ vocab := by
  unfold next_word at h
  split_ifs at h
  · exact lookupOpt_mem h
  · exact lookupOpt_mem h

lemma pyLower_ne_E {s : String} {c : Char} (hc : c ∈ (pyLower s).data) :
    c ≠ 'E' := by
  simp only [pyLower] at hc
  rcases List.mem_map.mp hc with ⟨d, -, rfl⟩
  unfold Char.toLower
  intro h
  by_cases hd : d.toNat ≥ 65 ∧ d.toNat ≤ 90
  · rw [if_pos hd] at h
    have hval : (d.toNat + 32).isValidChar := Or.inl (by omega)
    have h2 : (Char.ofNat (d.toNat + 32)).toNat = d.toNat + 32 := by
      unfold Char.ofNat
      rw [dif_pos hval]
      rfl
    have h3 := congrArg Char.toNat h
    rw [h2] at h3
    have h4 : d.toNat + 32 = 69 := by rw [h3]; rfl
    omega
  · rw [if_neg hd] at h
    subst h
    exact hd ⟨by decide, by decide⟩

lemma mem_foldl_firstSeen (l : List String) :
    ∀ acc x,
      x ∈ l.foldl (fun acc w => if w ∈ acc then acc else acc ++ [w]) acc ↔
        x ∈ acc ∨ x ∈ l := by
  induction l with
  | nil =>
    intro acc x
    simp
  | cons w t ih =>
    intro acc x
    rw [List.foldl_cons]
    by_cases hw : w ∈ acc
    · rw [if_pos hw, ih]
      constructor
      · rintro (h | h)
        · exact Or.inl h
        · exact Or.inr (List.mem_cons_of_mem w h)
      · rintro (h | h)
        · exact Or.inl h
        · rcases List.mem_cons.mp h with h2 | h2
          · exact Or.inl (h2 ▸ hw)
          · exact Or.inr h2
    · rw [if_neg hw, ih]
      simp only [List.mem_append, List.mem_singleton, List.mem_cons]
      tauto

lemma mem_firstSeen {ws : List String} {x : String} :
    x ∈ firstSeen ws ↔ x ∈ ws := by
  unfold firstSeen
  rw [mem_foldl_firstSeen]
  simp

lemma vocab_subset {ws : List String} {k : Int} {w : String}
    (h : w ∈ vocabOf ws k) : w ∈ ws := by
  unfold vocabOf at h
  have h2 := List.mem_of_mem_take h
  rw [List.mem_mergeSort] at h2
  exact mem_firstSeen.mp h2

lemma cleanWords_shape {ws : List String} {w : String}
    (h : w ∈ cleanWords ws) : ∃ a, w = pyLower a := by
  unfold cleanWords at h
  rcases List.mem_filterMap.mp h with ⟨a, -, ha⟩
  unfold cleanWord at ha
  split_ifs at ha
  exact ⟨stripChars a, (Option.some_inj.mp ha).symm⟩

lemma vocab_no_E {ws : List String} {k : Int} {w : String}
    (h : w ∈ vocabOf (cleanWords ws) k) : 'E' ∉ w.data := by
  obtain ⟨a, rfl⟩ := cleanWords_shape (vocab_subset h)
  intro hE
  exact pyLower_ne_E hE rfl

lemma mem_of_removeSpaceBeforeChar (p : Char) :
    ∀ l c, c ∈ removeSpaceBeforeChar p l → c ∈ l
  | [], _, h => h
  | [_], _, h => h
  | a :: b :: t, c, h => by
    simp only [removeSpaceBeforeChar] at h
    by_cases hc : (a == ' ' && b == p) = true
    · rw [if_pos hc] at h
      rcases List.mem_cons.mp h with h1 | h1
      · exact h1 ▸ List.mem_cons_of_mem a (List.mem_cons_self _ _)
      · exact List.mem_cons_of_mem a (List.mem_cons_of_mem b
          (mem_of_removeSpaceBeforeChar p t c h1))
    · rw [if_neg hc] at h
      rcases List.mem_cons.mp h with h1 | h1
      · exact h1 ▸ List.mem_cons_self _ _
      · exact List.mem_cons_of_mem a
          (mem_of_removeSpaceBeforeChar p (b :: t) c h1)

lemma mem_of_foldl_rsb :
    ∀ (ps : List Char) (l : List Char) (c : Char),
      c ∈ ps.foldl (fun acc p => removeSpaceBeforeChar p acc) l → c ∈ l := by
  intro ps
  induction ps with
  | nil =>
    intro l c h
    exact h
  | cons p t ih =>
    intro l c h
    rw [List.foldl_cons] at h
    exact mem_of_removeSpaceBeforeChar p l c (ih _ c h)

lemma mem_of_detokChars {l : List Char} {c : Char}
    (h : c ∈ detokChars l) : c ∈ l :=
  mem_of_foldl_rsb puncs l c h

lemma mem_joinChars :
    ∀ (ts : List String) (c : Char), c ∈ joinChars ts →
      c = ' ' ∨ ∃ t ∈ ts, c ∈ t.data
  | [], _, h => by cases h
  | [w], c, h => Or.inr ⟨w, List.mem_cons_self _ _, h⟩
  | w :: x :: xs, c, h => by
    rw [show joinChars (w :: x :: xs) =
      w.data ++ ' ' :: joinChars (x :: xs) from rfl] at h
    rcases List.mem_append.mp h with h1 | h1
    · exact Or.inr ⟨w, List.mem_cons_self _ _, h1⟩
    · rcases List.mem_cons.mp h1 with h2 | h2
      · exact Or.inl h2
      · rcases mem_joinChars (x :: xs) c h2 with h3 | ⟨t, ht, h4⟩
        · exact Or.inl h3
        · exact Or.inr ⟨t, List.mem_cons_of_mem w ht, h4⟩

/-- **C5**: for a start word absent from the vocabulary, `generate`
returns the unknown-start-word condition as an ordinary result value —
never a crash — and does so for every randomness stream, since the check
precedes any sampling; for a start word present in the vocabulary this
condition is never returned (every generated word is a lower-cased
vocabulary word, so the output can never equal the error string, which
contains an upper-case letter). -/
theorem c5 (ws : List String) (k : Int) (M : List (List Int)) (mlag : Nat)
    (tokens : List Int) (u : Nat → ℚ) (r : Nat → Nat) (start : String) :
    (start ∉ vocabOf (cleanWords ws) k →
      generate (vocabOf (cleanWords ws) k) M mlag tokens u r start =
        some errString) ∧
    (start ∈ vocabOf (cleanWords ws) k →
      generate (vocabOf (cleanWords ws) k) M mlag tokens u r start ≠
        some errString) := by
  constructor
  · intro h
    unfold generate generate_sentence
    rw [if_neg h]
  · intro h hcontra
    unfold generate generate_sentence at hcontra
    rw [if_pos h] at hcontra
    cases hg : genLoop
        (modelPredict (vocabOf (cleanWords ws) k) M mlag tokens u r)
        [start] start 0 with
    | none =>
      rw [hg] at hcontra
      cases hcontra
    | some g =>
      rw [hg] at hcontra
      have he : (⟨detokChars (joinChars g)⟩ : String) = errString :=
        Option.some_inj.mp hcontra
      have hEmem : 'E' ∈ errString.data := by decide
      rw [← he] at hEmem
      have hE3 := mem_of_detokChars hEmem
      rcases mem_joinChars g 'E' hE3 with h1 | ⟨t, ht, hE4⟩
      · exact absurd h1 (by decide)
      · have hmemv : t ∈ vocabOf (cleanWords ws) k := by
          rcases genLoop_mem _ 50 0 [start] start g (by omega) hg t ht
            with h2 | ⟨n, s, hp⟩
          · have h3 : t = start := by simpa using h2
            exact h3 ▸ h
          · unfold modelPredict at hp
            exact next_word_mem_vocab hp
        exact vocab_no_E hmemv hE4

/-- Witness for `c5`: corpus word `"the"`, model state empty; the unknown
start `"zzz"` yields the error string, the known start `"the"` never
does. -/
theorem c5_witness :
    ("zzz" ∉ vocabOf (cleanWords ["the"]) 5 ∧
      generate (vocabOf (cleanWords ["the"]) 5) [] 4 []
        (fun _ => 0) (fun _ => 0) "zzz" = some errString) ∧
    ("the" ∈ vocabOf (cleanWords ["the"]) 5 ∧
      generate (vocabOf (cleanWords ["the"]) 5) [] 4 []
        (fun _ => 0) (fun _ => 0) "the" ≠ some errString) := by
  have hv : vocabOf (cleanWords ["the"]) 5 = ["the"] := by
    unfold vocabOf
    rw [List.mergeSort_of_sorted (by decide)]
    rfl
  have h1 : "zzz" ∉ vocabOf (cleanWords ["the"]) 5 := by
    rw [hv]
    decide
  have h2 : "the" ∈ vocabOf (cleanWords ["the"]) 5 := by
    rw [hv]
    decide
  exact ⟨⟨h1, (c5 ["the"] 5 [] 4 [] (fun _ => 0) (fun _ => 0) "zzz").1 h1⟩,
    ⟨h2, (c5 ["the"] 5 [] 4 [] (fun _ => 0) (fun _ => 0) "the").2 h2⟩⟩

lemma nodup_foldl_firstSeen (l : List String) :
    ∀ acc : List String, acc.Nodup →
      (l.foldl (fun acc w => if w ∈ acc then acc else acc ++ [w]) acc).Nodup := by
  induction l with
  | nil =>
    intro acc hacc
    exact hacc
  | cons w t ih =>
    intro acc hacc
    rw [List.foldl_cons]
    by_cases hw : w ∈ acc
    · rw [if_pos hw]
      exact ih acc hacc
    · rw [if_neg hw]
      exact ih (acc ++ [w]) (hacc.append (List.nodup_singleton w)
        (List.disjoint_singleton.mpr hw))

lemma nodup_firstSeen (ws : List String) : (firstSeen ws).Nodup :=
  nodup_foldl_firstSeen ws [] List.nodup_nil

lemma freqLE_trans (ws : List String) :
    ∀ a b c, freqLE ws a b = true → freqLE ws b c = true →
      freqLE ws a c = true := by
  intro a b c hab hbc
  unfold freqLE at hab hbc ⊢
  have h1 := of_decide_eq_true hab
  have h2 := of_decide_eq_true hbc
  exact decide_eq_true (le_trans h2 h1)

lemma freqLE_total (ws : List String) :
    ∀ a b, (freqLE ws a b || freqLE ws b a) = true := by
  intro a b
  unfold freqLE
  rcases Nat.le_total (ws.count a) (ws.count b) with h | h
  · simp [decide_eq_true h]
  · simp [decide_eq_true h]

lemma pair_sublist_of_getElem_lt {α : Type} (l : List α) {i j : Nat}
    (hi : i < l.length) (hj : j < l.length) (hij : i < j) :
    [l[i], l[j]].Sublist l := by
  have h1 : l.drop i = l[i] :: l.drop (i + 1) := List.drop_eq_getElem_cons hi
  have hlt : j - (i + 1) < (l.drop (i + 1)).length := by
    rw [List.length_drop]
    omega
  have h2 : l[j] ∈ l.drop (i + 1) := by
    have he : (l.drop (i + 1))[j - (i + 1)] = l[j] := by
      rw [List.getElem_drop]
      congr 1
      omega
    rw [← he]
    exact List.getElem_mem hlt
  have h4 : ([l[i], l[j]] : List α).Sublist (l[i] :: l.drop (i + 1)) :=
    List.Sublist.cons₂ _ (List.singleton_sublist.mpr h2)
  rw [← h1] at h4
  exact h4.trans (List.drop_sublist i l)

lemma indexOf_lt_of_pair_sublist {α : Type} [DecidableEq α] :
    ∀ {l : List α}, l.Nodup → ∀ {a b : α}, a ≠ b →
      ([a, b] : List α).Sublist l → l.indexOf a < l.indexOf b := by
  intro l
  induction l with
  | nil =>
    intro _ a b _ h
    exact absurd (List.sublist_nil.mp h) (by simp)
  | cons c t ih =>
    intro hnd a b hab h
    have hnd2 := List.nodup_cons.mp hnd
    cases h with
    | cons _ h2 =>
      have ha : a ∈ t := h2.subset (by simp)
      have hb : b ∈ t := h2.subset (by simp)
      have hac : a ≠ c := fun he => hnd2.1 (he ▸ ha)
      have hbc : b ≠ c := fun he => hnd2.1 (he ▸ hb)
      rw [List.indexOf_cons_ne t (fun he => hac he.symm),
        List.indexOf_cons_ne t (fun he => hbc he.symm)]
      exact Nat.succ_lt_succ (ih hnd2.2 hab h2)
    | cons₂ _ h2 =>
      rw [List.indexOf_cons_self]
      rw [List.indexOf_cons_ne t hab]
      exact Nat.succ_pos _

/-- **C6**: for every cleaned token sequence and `topK > 0` the built
vocabulary is the `topK` most frequent distinct corpus tokens in
descending frequency order with ties broken by first appearance, ids are
dense `0..|V|-1` with `word_to_id` and `id_to_word` mutually inverse, the
vocabulary never exceeds `topK`, and the token stream maps each position
to its token's id or the sentinel `-1`. -/
theorem c6 (ws : List String) (k : Int) (hk : 0 < k) :
    (vocabOf ws k).length ≤ k.toNat ∧
    (vocabOf ws k).Nodup ∧
    (∀ w ∈ vocabOf ws k, w ∈ ws) ∧
    (vocabOf ws k).length = min k.toNat (firstSeen ws).length ∧
    (∀ w ∈ vocabOf ws k,
      (wordToId (vocabOf ws k) w).bind (idToWord (vocabOf ws k)) =
        some w) ∧
    (∀ i (hi : i < (vocabOf ws k).length),
      wordToId (vocabOf ws k) ((vocabOf ws k).get ⟨i, hi⟩) =
        some (i : Int)) ∧
    (vocabOf ws k).Pairwise (fun a b => ws.count b ≤ ws.count a) ∧
    (∀ w ∈ ws, w ∉ vocabOf ws k →
      ∀ x ∈ vocabOf ws k, ws.count w ≤ ws.count x) ∧
    (∀ i j (hi : i < (vocabOf ws k).length)
        (hj : j < (vocabOf ws k).length), i < j →
      ws.count ((vocabOf ws k).get ⟨i, hi⟩) =
        ws.count ((vocabOf ws k).get ⟨j, hj⟩) →
      (firstSeen ws).indexOf ((vocabOf ws k).get ⟨i, hi⟩) <
        (firstSeen ws).indexOf ((vocabOf ws k).get ⟨j, hj⟩)) ∧
    (tokensOf ws (vocabOf ws k)).length = ws.length ∧
    (∀ i (hi : i < ws.length),
      (tokensOf ws (vocabOf ws k)).getD i 0 =
        if ws.get ⟨i, hi⟩ ∈ vocabOf ws k then
          ((vocabOf ws k).indexOf (ws.get ⟨i, hi⟩) : Int)
        else -1) := by
  have hperm : List.Perm ((firstSeen ws).mergeSort (freqLE ws))
      (firstSeen ws) :=
    List.mergeSort_perm (firstSeen ws) (freqLE ws)
  have hnd_fs : (firstSeen ws).Nodup := nodup_firstSeen ws
  have hnd_s : ((firstSeen ws).mergeSort (freqLE ws)).Nodup :=
    hperm.nodup_iff.mpr hnd_fs
  have hsub : (vocabOf ws k).Sublist ((firstSeen ws).mergeSort (freqLE ws)) :=
    List.take_sublist _ _
  have hnd_v : (vocabOf ws k).Nodup := hsub.nodup hnd_s
  have hP : ((firstSeen ws).mergeSort (freqLE ws)).Pairwise
      (fun a b => freqLE ws a b = true) :=
    List.sorted_mergeSort (freqLE_trans ws) (freqLE_total ws) (firstSeen ws)
  refine ⟨List.length_take_le _ _, hnd_v, fun w hw => vocab_subset hw,
    ?_, ?_, ?_, ?_, ?_, ?_, ?_, ?_⟩
  · show (((firstSeen ws).mergeSort (freqLE ws)).take k.toNat).length = _
    rw [List.length_take, List.length_mergeSort]
  · intro w hw
    have hidx : (vocabOf ws k).indexOf w < (vocabOf ws k).length :=
      List.indexOf_lt_length.mpr hw
    unfold wordToId idToWord
    rw [if_pos hw, Option.some_bind]
    rw [dif_pos ⟨Int.natCast_nonneg _, by
      rw [Int.toNat_natCast]
      exact hidx⟩]
    have hfin : (⟨((vocabOf ws k).indexOf w : Int).toNat, by
        rw [Int.toNat_natCast]
        exact hidx⟩ : Fin (vocabOf ws k).length) =
        ⟨(vocabOf ws k).indexOf w, hidx⟩ :=
      Fin.ext (Int.toNat_natCast _)
    rw [hfin, List.get_eq_getElem, List.getElem_indexOf hidx]
  · intro i hi
    unfold wordToId
    rw [if_pos (List.get_mem _ _ _)]
    rw [List.get_eq_getElem]
    rw [List.indexOf_getElem hnd_v i hi]
  · refine (List.Pairwise.sublist hsub hP).imp ?_
    intro a b hab
    exact of_decide_eq_true hab
  · intro w hws hnv x hx
    have hw_fs : w ∈ firstSeen ws := mem_firstSeen.mpr hws
    have hw_s : w ∈ (firstSeen ws).mergeSort (freqLE ws) :=
      List.mem_mergeSort.mpr hw_fs
    have hsplit := List.take_append_drop k.toNat
      ((firstSeen ws).mergeSort (freqLE ws))
    have hP2 : (((firstSeen ws).mergeSort (freqLE ws)).take k.toNat ++
        ((firstSeen ws).mergeSort (freqLE ws)).drop k.toNat).Pairwise
        (fun a b => freqLE ws a b = true) := by
      rw [hsplit]
      exact hP
    have hw_drop : w ∈ ((firstSeen ws).mergeSort (freqLE ws)).drop k.toNat := by
      have : w ∈ ((firstSeen ws).mergeSort (freqLE ws)).take k.toNat ++
          ((firstSeen ws).mergeSort (freqLE ws)).drop k.toNat := by
        rw [hsplit]
        exact hw_s
      rcases List.mem_append.mp this with h1 | h1
      · exact absurd h1 hnv
      · exact h1
    have := (List.pairwise_append.mp hP2).2.2 x hx w hw_drop
    exact of_decide_eq_true this
  · intro i j hi hj hij hcnt
    set a := (vocabOf ws k).get ⟨i, hi⟩ with ha
    set b := (vocabOf ws k).get ⟨j, hj⟩ with hb
    have hpair_v : ([a, b] : List String).Sublist (vocabOf ws k) := by
      rw [ha, hb]
      simp only [List.get_eq_getElem]
      exact pair_sublist_of_getElem_lt _ hi hj hij
    have hpair_s : ([a, b] : List String).Sublist
        ((firstSeen ws).mergeSort (freqLE ws)) := hpair_v.trans hsub
    have hne : a ≠ b := by
      have hnd_ab : ([a, b] : List String).Nodup := hpair_v.nodup hnd_v
      simpa using (List.nodup_cons.mp hnd_ab).1
    have ha_fs : a ∈ firstSeen ws :=
      hperm.mem_iff.mp (hpair_s.subset (by simp))
    have hb_fs : b ∈ firstSeen ws :=
      hperm.mem_iff.mp (hpair_s.subset (by simp))
    have hia : (firstSeen ws).indexOf a < (firstSeen ws).length :=
      List.indexOf_lt_length.mpr ha_fs
    have hib : (firstSeen ws).indexOf b < (firstSeen ws).length :=
      List.indexOf_lt_length.mpr hb_fs
    by_contra hcon
    have hne_idx : (firstSeen ws).indexOf a ≠ (firstSeen ws).indexOf b := by
      intro he
      apply hne
      rw [← List.getElem_indexOf hia, ← List.getElem_indexOf hib]
      congr 1
    have hlt : (firstSeen ws).indexOf b < (firstSeen ws).indexOf a := by
      omega
    have hpair_fs : ([b, a] : List String).Sublist (firstSeen ws) := by
      have := pair_sublist_of_getElem_lt (firstSeen ws) hib hia hlt
      rwa [List.getElem_indexOf hib, List.getElem_indexOf hia] at this
    have hle : freqLE ws b a = true := by
      unfold freqLE
      exact decide_eq_true (le_of_eq hcnt)
    have hs2 : ([b, a] : List String).Sublist
        ((firstSeen ws).mergeSort (freqLE ws)) :=
      List.pair_sublist_mergeSort (freqLE_trans ws) (freqLE_total ws)
        hle hpair_fs
    have h1 := indexOf_lt_of_pair_sublist hnd_s hne hpair_s
    have h2 := indexOf_lt_of_pair_sublist hnd_s (Ne.symm hne) hs2
    omega
  · simp [tokensOf]
  · intro i hi
    have hmap : (tokensOf ws (vocabOf ws k)).length = ws.length := by
      simp [tokensOf]
    have hlt : i < (tokensOf ws (vocabOf ws k)).length := by
      rw [hmap]
      exact hi
    rw [List.getD_eq_getElem _ _ hlt]
    simp only [tokensOf, List.getElem_map]
    unfold wordToId
    rw [List.get_eq_getElem]
    by_cases hv : ws[i] ∈ vocabOf ws k
    · rw [if_pos hv, if_pos hv]
      rfl
    · rw [if_neg hv, if_neg hv]
      rfl

/-- Witness for `c6` at `ws = ["b", "a", "b"]`, `k = 2`. -/
theorem c6_witness :
    (0 : Int) < 2 ∧
    ((vocabOf ["b", "a", "b"] 2).length ≤ (2 : Int).toNat ∧
     (vocabOf ["b", "a", "b"] 2).Nodup ∧
     (∀ w ∈ vocabOf ["b", "a", "b"] 2, w ∈ (["b", "a", "b"] : List String)) ∧
     (vocabOf ["b", "a", "b"] 2).length =
       min (2 : Int).toNat (firstSeen ["b", "a", "b"]).length ∧
     (∀ w ∈ vocabOf ["b", "a", "b"] 2,
       (wordToId (vocabOf ["b", "a", "b"] 2) w).bind
         (idToWord (vocabOf ["b", "a", "b"] 2)) = some w) ∧
     (∀ i (hi : i < (vocabOf ["b", "a", "b"] 2).length),
       wordToId (vocabOf ["b", "a", "b"] 2)
         ((vocabOf ["b", "a", "b"] 2).get ⟨i, hi⟩) = some (i : Int)) ∧
     (vocabOf ["b", "a", "b"] 2).Pairwise
       (fun a b => (["b", "a", "b"] : List String).count b ≤
         (["b", "a", "b"] : List String).count a) ∧
     (∀ w ∈ (["b", "a", "b"] : List String), w ∉ vocabOf ["b", "a", "b"] 2 →
       ∀ x ∈ vocabOf ["b", "a", "b"] 2,
         (["b", "a", "b"] : List String).count w ≤
           (["b", "a", "b"] : List String).count x) ∧
     (∀ i j (hi : i < (vocabOf ["b", "a", "b"] 2).length)
         (hj : j < (vocabOf ["b", "a", "b"] 2).length), i < j →
       (["b", "a", "b"] : List String).count
           ((vocabOf ["b", "a", "b"] 2).get ⟨i, hi⟩) =
         (["b", "a", "b"] : List String).count
           ((vocabOf ["b", "a", "b"] 2).get ⟨j, hj⟩) →
       (firstSeen ["b", "a", "b"]).indexOf
           ((vocabOf ["b", "a", "b"] 2).get ⟨i, hi⟩) <
         (firstSeen ["b", "a", "b"]).indexOf
           ((vocabOf ["b", "a", "b"] 2).get ⟨j, hj⟩)) ∧
     (tokensOf ["b", "a", "b"] (vocabOf ["b", "a", "b"] 2)).length =
       (["b", "a", "b"] : List String).length ∧
     (∀ i (hi : i < (["b", "a", "b"] : List String).length),
       (tokensOf ["b", "a", "b"] (vocabOf ["b", "a", "b"] 2)).getD i 0 =
         if (["b", "a", "b"] : List String).get ⟨i, hi⟩ ∈
             vocabOf ["b", "a", "b"] 2 then
           ((vocabOf ["b", "a", "b"] 2).indexOf
             ((["b", "a", "b"] : List String).get ⟨i, hi⟩) : Int)
         else -1)) :=
  ⟨by decide, c6 ["b", "a", "b"] 2 (by decide)⟩

end Markov
